import Mathlib

/-
  Verification development for `replace` (replace.c): a multi-pattern
  literal string replacement tool.  C strings are embedded as `List Char`,
  a `ReplacePair` mirrors the C struct of the same name, and the scanning
  loop of `replace_in_string` is embedded with an explicit fuel argument
  (one unit of fuel per loop iteration; the loop consumes at least one
  input character per iteration, so `str.length` fuel always suffices,
  which the lemmas below establish).
-/

/-- Mirrors the C `ReplacePair` struct: a from-string and a to-string. -/
structure ReplacePair where
  fromStr : List Char
  toStr : List Char
deriving DecidableEq

/-- The inner scan of `replace_in_string` (replace.c lines 240-249): walk the
whole pattern list keeping the running `match_len` (starts at 0) and the best
match found so far (the C code keeps `replace_idx`; we keep the selected pair
itself, `none` standing for the initial invalid index).  A pair is considered
only when its from-string is non-empty (`from_len == 0` is skipped) and is a
byte-for-byte prefix of the remaining input (`strncmp == 0`); it replaces the
running best only when strictly longer (`from_len > match_len`). -/
def findBestAux (cur : List Char) (matchLen : Nat) (best : Option ReplacePair) :
    List ReplacePair → Nat × Option ReplacePair
  | [] => (matchLen, best)
  | p :: ps =>
    if p.fromStr.length = 0 then
      findBestAux cur matchLen best ps
    else if p.fromStr.isPrefixOf cur then
      if p.fromStr.length > matchLen then
        findBestAux cur p.fromStr.length (some p) ps
      else
        findBestAux cur matchLen best ps
    else
      findBestAux cur matchLen best ps

/-- The match selection of `replace_in_string` at one cursor position:
`match_len` initialized to 0 and `replace_idx` to the invalid index. -/
def findBest (cur : List Char) (pairs : List ReplacePair) : Nat × Option ReplacePair :=
  findBestAux cur 0 none pairs

/-- The main loop of `replace_in_string` (replace.c lines 236-288), with fuel.
If a match was selected (`replace_idx < count`), append the pair's to-string
to the output and advance the cursor by `match_len`, setting the updated flag;
otherwise copy one character and advance by one.  The fuel-exhaustion case is
unreachable whenever the fuel is at least the input length, because every
iteration consumes at least one character. -/
def replaceLoopF (pairs : List ReplacePair) : Nat → List Char → List Char × Bool
  | _, [] => ([], false)
  | 0, _ :: _ => ([], false)
  | fuel + 1, c :: rest =>
    match findBest (c :: rest) pairs with
    | (matchLen, some p) =>
      let r := replaceLoopF pairs fuel (List.drop matchLen (c :: rest))
      (p.toStr ++ r.1, true)
    | (_, none) =>
      let r := replaceLoopF pairs fuel rest
      (c :: r.1, r.2)

/-- `replace_in_string` (replace.c lines 223-291): the transformed string
together with the `*updated` flag (initialized to 0 at line 224). -/
def replace_in_string (str : List Char) (pairs : List ReplacePair) : List Char × Bool :=
  replaceLoopF pairs str.length str

/-- The per-iteration input consumption of the `replace_in_string` loop:
at each cursor position, the chunk of input consumed by that iteration —
the matched from-string (when a match is selected) or the single copied
character (otherwise). -/
def consumeChunksF (pairs : List ReplacePair) : Nat → List Char → List (List Char)
  | _, [] => []
  | 0, _ :: _ => []
  | fuel + 1, c :: rest =>
    match findBest (c :: rest) pairs with
    | (matchLen, some _) =>
      List.take matchLen (c :: rest) :: consumeChunksF pairs fuel (List.drop matchLen (c :: rest))
    | (_, none) =>
      [c] :: consumeChunksF pairs fuel rest

/-- The consumption trace of `replace_in_string` on a whole input. -/
def consumeChunks (pairs : List ReplacePair) (str : List Char) : List (List Char) :=
  consumeChunksF pairs str.length str

/-- The newline stripping of `process_stream` (replace.c lines 302-304):
`if (read > 0 && line[read - 1] == ...)` removes one trailing newline. -/
def chomp (raw : List Char) : List Char :=
  if raw.length > 0 ∧ raw.getLast? = some '\n' then raw.dropLast else raw

/-- One iteration of the `process_stream` loop (replace.c lines 300-329) for a
raw line as delivered by `getline` (trailing newline included when present):
strip the newline, run `replace_in_string`, then `strcat(replaced, "\n")`
unconditionally appends a newline before the line is written out. -/
def processLine (pairs : List ReplacePair) (raw : List Char) : List Char :=
  (replace_in_string (chomp raw) pairs).1 ++ ['\n']

/-- `process_stream` output over the lines of the input (the `getline`
framing — splitting the byte stream into newline-terminated records — is the
host collaborator). -/
def process_stream (pairs : List ReplacePair) (rawLines : List (List Char)) :
    List (List Char) :=
  rawLines.map (processLine pairs)

/-- `replace_in_string` with heap allocation made explicit (replace.c lines
223-291).  `oracle k` tells whether the k-th allocation call (`malloc` at
line 228, then each `realloc` at lines 258 and 276 in order) succeeds.  The
state mirrors the C locals: `acc` is the output written so far (so
`acc.length` is `res_ptr - result`), `bufSize` is `buffer_size`, `k` counts
allocation calls, `upd` is `*updated`.  A failed allocation makes the process
exit (line 231/262/280: `exit(1)`), embedded as `Except.error ()`; an ordinary
return (line 290 `return result;`) is `Except.ok` carrying the returned
`char*`, which is `some` of the produced string — the `Option` models the
pointer that `process_stream` tests against NULL.  The fuel-exhaustion case is
unreachable for fuel at least the remaining input length. -/
def replaceAllocLoop (oracle : Nat → Bool) (pairs : List ReplacePair) :
    Nat → List Char → List Char → Nat → Nat → Bool →
    Except Unit (Option (List Char) × Bool)
  | _, [], acc, _, _, upd => Except.ok (some acc, upd)
  | 0, _ :: _, acc, _, _, upd => Except.ok (some acc, upd)
  | fuel + 1, c :: rest, acc, bufSize, k, upd =>
    match findBest (c :: rest) pairs with
    | (matchLen, some p) =>
      if acc.length + p.toStr.length + 1 > bufSize then
        if oracle k then
          replaceAllocLoop oracle pairs fuel (List.drop matchLen (c :: rest))
            (acc ++ p.toStr) ((acc.length + p.toStr.length + 1) * 2) (k + 1) true
        else
          Except.error ()
      else
        replaceAllocLoop oracle pairs fuel (List.drop matchLen (c :: rest))
          (acc ++ p.toStr) bufSize k true
    | (_, none) =>
      if acc.length + 2 > bufSize then
        if oracle k then
          replaceAllocLoop oracle pairs fuel rest (acc ++ [c]) (bufSize * 2) (k + 1) upd
        else
          Except.error ()
      else
        replaceAllocLoop oracle pairs fuel rest (acc ++ [c]) bufSize k upd

/-- `replace_in_string` with the allocation oracle: the initial `malloc` of
`len + 1` bytes is allocation number 0. -/
def replace_in_string_alloc (oracle : Nat → Bool) (str : List Char)
    (pairs : List ReplacePair) : Except Unit (Option (List Char) × Bool) :=
  if oracle 0 then
    replaceAllocLoop oracle pairs str.length str [] (str.length + 1) 1 false
  else
    Except.error ()

/-- Outcome of one `process_stream` iteration with allocation explicit:
either the process exited inside `replace_in_string`, or the NULL-check
branch at replace.c lines 308-312 fired (printing "Replacement failed."),
or a transformed line was produced. -/
inductive StreamLineResult where
  | exited : StreamLineResult
  | replacementFailed : StreamLineResult
  | ok : List Char → StreamLineResult
deriving DecidableEq

/-- One `process_stream` iteration (replace.c lines 300-323) with allocation
explicit: chomp the line, call `replace_in_string`, take the NULL-check
branch when the returned pointer is NULL, else append the newline. -/
def process_stream_line (oracle : Nat → Bool) (pairs : List ReplacePair)
    (raw : List Char) : StreamLineResult :=
  match replace_in_string_alloc oracle (chomp raw) pairs with
  | Except.error () => StreamLineResult.exited
  | Except.ok (none, _) => StreamLineResult.replacementFailed
  | Except.ok (some s, _) => StreamLineResult.ok (s ++ ['\n'])

/-- Filesystem environment for one `process_file` call: whether each
filesystem operation, in program order, succeeds (replace.c lines 337-391:
`fopen`, `mkstemp`, `fdopen`, the `process_stream` call, `remove(filename)`,
`rename`). -/
structure FsEnv where
  openOk : Bool
  mkstempOk : Bool
  fdopenOk : Bool
  streamOk : Bool
  removeOk : Bool
  renameOk : Bool
deriving DecidableEq

/-- Observable outcome of one `process_file` call: the return value, whether
`remove(temp_template)` was invoked (destroying the temporary file), whether
the original file was removed, whether the rename happened, and the stderr
message emitted on the failing path (if any). -/
structure FileOutcome where
  ret : Nat
  tempRemoved : Bool
  origRemoved : Bool
  renamed : Bool
  stderrMsg : Option String
deriving DecidableEq

/-- `process_file` (replace.c lines 337-391) as a function of which
filesystem operations succeed.  Each branch mirrors one early-return path of
the C code: note that on the `fdopen` failure path the temporary file is
closed but not removed, that a `process_stream` failure or a failure to
remove the original removes the temporary file and returns 1, and that on a
`rename` failure (after the original was already removed) the code also
removes the temporary file and returns the same 1 as every other failure. -/
def process_file (e : FsEnv) : FileOutcome :=
  if e.openOk = false then
    ⟨1, false, false, false, some "Failed to open file"⟩
  else if e.mkstempOk = false then
    ⟨1, false, false, false, some "Failed to create temporary file"⟩
  else if e.fdopenOk = false then
    ⟨1, false, false, false, some "Failed to open temporary file"⟩
  else if e.streamOk = false then
    ⟨1, true, false, false, none⟩
  else if e.removeOk = false then
    ⟨1, true, false, false, some "Failed to remove original file"⟩
  else if e.renameOk = false then
    ⟨1, true, true, false, some "Failed to rename temporary file"⟩
  else
    ⟨0, false, true, true, none⟩

/-- The file loop of `main` (replace.c lines 115-117): every file named on
the command line is processed with `process_file`, regardless of earlier
failures (`error |= process_file(...)`). -/
def main_run_files (envs : List FsEnv) : List FileOutcome :=
  envs.map process_file

/-- The exit status of `main` after processing files (replace.c line 122):
`return error ? 2 : 0;` where `error` has accumulated the per-file return
values with `|=`. -/
def main_exit_code (envs : List FsEnv) : Nat :=
  if (main_run_files envs).foldl (fun acc o => acc || (o.ret != 0)) false then 2 else 0

/-- The exit status `main` uses for an argument-parsing failure (replace.c
lines 67-69 and 84-88: `return 1;`). -/
def arg_error_code : Nat := 1

/-- The inner loop of the sort in `parse_replace_strings` (replace.c lines
193-202) for a fixed outer index: `cur` is the pair currently in slot `i`;
every later slot `j` is compared and swapped in when its from-string is
strictly longer (`len_j > len_i`).  Returns the pair left in slot `i` after
the pass together with the later slots' contents. -/
def selPass (cur : ReplacePair) : List ReplacePair → ReplacePair × List ReplacePair
  | [] => (cur, [])
  | p :: ps =>
    if p.fromStr.length > cur.fromStr.length then
      ((selPass p ps).1, cur :: (selPass p ps).2)
    else
      ((selPass cur ps).1, p :: (selPass cur ps).2)

/-- The outer loop of the sort in `parse_replace_strings` (replace.c lines
192-203), with fuel equal to the list length (each outer iteration fixes one
slot; `selPass` preserves the length of the remainder, so this fuel is
exact). -/
def selSortF : Nat → List ReplacePair → List ReplacePair
  | 0, _ => []
  | _ + 1, [] => []
  | n + 1, p :: ps => (selPass p ps).1 :: selSortF n (selPass p ps).2

/-- The sort of `parse_replace_strings`: descending `strlen(from)`. -/
def selSort (l : List ReplacePair) : List ReplacePair := selSortF l.length l

/-- The pairing loop of `parse_replace_strings` (replace.c lines 181-189):
consecutive arguments become (from, to) pairs. -/
def mkPairs : List (List Char) → List ReplacePair
  | f :: t :: rest => ⟨f, t⟩ :: mkPairs rest
  | _ => []

/-- `parse_replace_strings` (replace.c lines 170-206) together with the
guard `main` performs before calling it (lines 84-88: the replace arguments
must number at least 2 and be even): `none` models the argument-error path,
`some` the successfully constructed, sorted pattern list. -/
def parse_replace_strings (args : List (List Char)) : Option (List ReplacePair) :=
  if args.length < 2 ∨ args.length % 2 ≠ 0 then none
  else some (selSort (mkPairs args))

/-- A pattern is a candidate match at a cursor position when its from-string
is non-empty and is a byte-for-byte prefix of the remaining input
(replace.c lines 242-243). -/
abbrev MatchesAt (cur : List Char) (q : ReplacePair) : Prop :=
  0 < q.fromStr.length ∧ q.fromStr.isPrefixOf cur = true

/-- Invariant of the `findBestAux` scan after processing the prefix
`processed` of the pattern list: with no match yet, `match_len` is still 0
and no processed pattern is a candidate; with a best match `p` recorded,
`match_len` is `p`'s from-length, `p` is a candidate, and the processed
patterns split around an occurrence of `p` such that every earlier candidate
is strictly shorter (so `p` is the first candidate of maximal length) and
every later candidate is no longer. -/
def BestInv (cur : List Char) (processed : List ReplacePair) :
    Nat × Option ReplacePair → Prop
  | (ml, none) => ml = 0 ∧ ∀ q ∈ processed, ¬ MatchesAt cur q
  | (ml, some p) =>
      ml = p.fromStr.length ∧ MatchesAt cur p ∧
      ∃ l₁ l₂, processed = l₁ ++ p :: l₂ ∧
        (∀ q ∈ l₁, MatchesAt cur q → q.fromStr.length < ml) ∧
        (∀ q ∈ l₂, MatchesAt cur q → q.fromStr.length ≤ ml)

lemma bestInv_nil (cur : List Char) : BestInv cur [] (0, none) :=
  ⟨rfl, by simp⟩

lemma bestInv_push_notmatch (cur : List Char) (processed : List ReplacePair)
    (st : Nat × Option ReplacePair) (p : ReplacePair)
    (h : BestInv cur processed st) (hp : ¬ MatchesAt cur p) :
    BestInv cur (processed ++ [p]) st := by
  obtain ⟨ml, best⟩ := st
  cases best with
  | none =>
    refine ⟨h.1, fun q hq => ?_⟩
    rcases List.mem_append.1 hq with hq | hq
    · exact h.2 q hq
    · simp only [List.mem_singleton] at hq
      subst hq; exact hp
  | some b =>
    obtain ⟨hml, hmb, l₁, l₂, hdec, hlt, hle⟩ := h
    refine ⟨hml, hmb, l₁, l₂ ++ [p], by simp [hdec], hlt, fun q hq hm => ?_⟩
    rcases List.mem_append.1 hq with hq | hq
    · exact hle q hq hm
    · simp only [List.mem_singleton] at hq
      subst hq; exact absurd hm hp

lemma bestInv_push_le (cur : List Char) (processed : List ReplacePair)
    (ml : Nat) (b p : ReplacePair)
    (h : BestInv cur processed (ml, some b)) (hle : p.fromStr.length ≤ ml) :
    BestInv cur (processed ++ [p]) (ml, some b) := by
  obtain ⟨hml, hmb, l₁, l₂, hdec, hlt, hle'⟩ := h
  refine ⟨hml, hmb, l₁, l₂ ++ [p], by simp [hdec], hlt, fun q hq hm => ?_⟩
  rcases List.mem_append.1 hq with hq | hq
  · exact hle' q hq hm
  · simp only [List.mem_singleton] at hq
    subst hq; exact hle

lemma bestInv_push_gt (cur : List Char) (processed : List ReplacePair)
    (ml : Nat) (best : Option ReplacePair) (p : ReplacePair)
    (h : BestInv cur processed (ml, best)) (hp : MatchesAt cur p)
    (hgt : ml < p.fromStr.length) :
    BestInv cur (processed ++ [p]) (p.fromStr.length, some p) := by
  refine ⟨rfl, hp, processed, [], by simp, fun q hq hm => ?_, by simp⟩
  cases best with
  | none => exact absurd hm (h.2 q hq)
  | some b =>
    obtain ⟨hml, hmb, l₁, l₂, hdec, hlt, hle⟩ := h
    subst hdec
    rcases List.mem_append.1 hq with hq | hq
    · exact lt_trans (hlt q hq hm) hgt
    · rcases List.mem_cons.1 hq with hq | hq
      · subst hq; omega
      · exact lt_of_le_of_lt (hle q hq hm) hgt

lemma findBestAux_inv (cur : List Char) (ps : List ReplacePair) :
    ∀ (processed : List ReplacePair) (ml : Nat) (best : Option ReplacePair),
      BestInv cur processed (ml, best) →
      BestInv cur (processed ++ ps) (findBestAux cur ml best ps) := by
  induction ps with
  | nil =>
    intro processed ml best h
    simpa [findBestAux] using h
  | cons p ps ih =>
    intro processed ml best h
    have hassoc : processed ++ p :: ps = (processed ++ [p]) ++ ps := by
      simp
    unfold findBestAux
    by_cases h0 : p.fromStr.length = 0
    · rw [if_pos h0, hassoc]
      exact ih (processed ++ [p]) ml best
        (bestInv_push_notmatch cur processed (ml, best) p h (by simp [MatchesAt, h0]))
    · rw [if_neg h0]
      by_cases hpre : p.fromStr.isPrefixOf cur
      · rw [if_pos hpre]
        have hm : MatchesAt cur p := ⟨Nat.pos_of_ne_zero h0, hpre⟩
        by_cases hgt : p.fromStr.length > ml
        · rw [if_pos hgt, hassoc]
          exact ih (processed ++ [p]) p.fromStr.length (some p)
            (bestInv_push_gt cur processed ml best p h hm hgt)
        · rw [if_neg hgt]
          cases best with
          | none =>
            exfalso
            have : ml = 0 := h.1
            omega
          | some b =>
            rw [hassoc]
            exact ih (processed ++ [p]) ml (some b)
              (bestInv_push_le cur processed ml b p h (by omega))
      · rw [if_neg hpre]
        rw [hassoc]
        exact ih (processed ++ [p]) ml best
          (bestInv_push_notmatch cur processed (ml, best) p h
            (fun hm => hpre hm.2))

lemma findBest_inv (cur : List Char) (pairs : List ReplacePair) :
    BestInv cur pairs (findBest cur pairs) := by
  simpa using findBestAux_inv cur pairs [] 0 none (bestInv_nil cur)

lemma findBest_some (cur : List Char) (pairs : List ReplacePair)
    (ml : Nat) (p : ReplacePair) (h : findBest cur pairs = (ml, some p)) :
    ml = p.fromStr.length ∧ MatchesAt cur p ∧
      ∃ l₁ l₂, pairs = l₁ ++ p :: l₂ ∧
        (∀ q ∈ l₁, MatchesAt cur q → q.fromStr.length < ml) ∧
        (∀ q ∈ l₂, MatchesAt cur q → q.fromStr.length ≤ ml) := by
  have := findBest_inv cur pairs
  rw [h] at this
  exact this

lemma findBest_none (cur : List Char) (pairs : List ReplacePair)
    (ml : Nat) (h : findBest cur pairs = (ml, none)) :
    ∀ q ∈ pairs, ¬ MatchesAt cur q := by
  have := findBest_inv cur pairs
  rw [h] at this
  exact this.2

lemma findBest_pos (cur : List Char) (pairs : List ReplacePair)
    (ml : Nat) (p : ReplacePair) (h : findBest cur pairs = (ml, some p)) :
    0 < ml := by
  obtain ⟨hml, hm, -⟩ := findBest_some cur pairs ml p h
  rw [hml]; exact hm.1
  -- hml : ml = length, hm.1 : 0 < length

lemma replaceLoopF_nil (pairs : List ReplacePair) (fuel : Nat) :
    replaceLoopF pairs fuel [] = ([], false) := by
  cases fuel <;> rfl

lemma replaceLoopF_cons (pairs : List ReplacePair) (fuel : Nat) (c : Char)
    (rest : List Char) :
    replaceLoopF pairs (fuel + 1) (c :: rest) =
      match findBest (c :: rest) pairs with
      | (matchLen, some p) =>
        (p.toStr ++ (replaceLoopF pairs fuel (List.drop matchLen (c :: rest))).1, true)
      | (_, none) =>
        (c :: (replaceLoopF pairs fuel rest).1, (replaceLoopF pairs fuel rest).2) := rfl

lemma replaceLoopF_fuel (pairs : List ReplacePair) :
    ∀ (fuel fuel' : Nat) (cur : List Char), cur.length ≤ fuel → cur.length ≤ fuel' →
      replaceLoopF pairs fuel cur = replaceLoopF pairs fuel' cur := by
  intro fuel
  induction fuel with
  | zero =>
    intro fuel' cur h h'
    have : cur = [] := List.eq_nil_of_length_eq_zero (Nat.le_zero.1 h)
    subst this
    simp [replaceLoopF_nil]
  | succ f ih =>
    intro fuel' cur h h'
    match cur with
    | [] => simp [replaceLoopF_nil]
    | c :: rest =>
      match fuel' with
      | 0 => simp at h'
      | f' + 1 =>
        rw [replaceLoopF_cons, replaceLoopF_cons]
        rcases hfb : findBest (c :: rest) pairs with ⟨ml, best⟩
        cases best with
        | some p =>
          have hpos : 0 < ml := findBest_pos (c :: rest) pairs ml p hfb
          have hlen : (List.drop ml (c :: rest)).length ≤ f := by
            rw [List.length_drop]
            simp only [List.length_cons] at h ⊢
            omega
          have hlen' : (List.drop ml (c :: rest)).length ≤ f' := by
            rw [List.length_drop]
            simp only [List.length_cons] at h' ⊢
            omega
          simp only [ih f' (List.drop ml (c :: rest)) hlen hlen']
        | none =>
          have hlen : rest.length ≤ f := by
            simp only [List.length_cons] at h; omega
          have hlen' : rest.length ≤ f' := by
            simp only [List.length_cons] at h'; omega
          simp only [ih f' rest hlen hlen']

lemma replace_in_string_nil (pairs : List ReplacePair) :
    replace_in_string [] pairs = ([], false) := rfl

lemma replace_in_string_cons (pairs : List ReplacePair) (c : Char) (rest : List Char) :
    replace_in_string (c :: rest) pairs =
      match findBest (c :: rest) pairs with
      | (ml, some p) =>
        (p.toStr ++ (replace_in_string (List.drop ml (c :: rest)) pairs).1, true)
      | (_, none) =>
        (c :: (replace_in_string rest pairs).1, (replace_in_string rest pairs).2) := by
  show replaceLoopF pairs (rest.length + 1) (c :: rest) = _
  rw [replaceLoopF_cons]
  rcases hfb : findBest (c :: rest) pairs with ⟨ml, best⟩
  cases best with
  | some p =>
    have hpos : 0 < ml := findBest_pos (c :: rest) pairs ml p hfb
    have : replaceLoopF pairs rest.length (List.drop ml (c :: rest)) =
        replace_in_string (List.drop ml (c :: rest)) pairs := by
      apply replaceLoopF_fuel
      · rw [List.length_drop]; simp only [List.length_cons]; omega
      · exact le_refl _
    dsimp only
    rw [this]
  | none => rfl
/-- C1: At each cursor position `replace_in_string` selects, among all
non-empty from-patterns that match byte-for-byte at the cursor, the one with
the greatest from-length, ties broken in favor of the first such pattern in
the pattern list's current order; it appends that pattern's to-string,
advances the cursor by the matched from-length, and otherwise copies one
character and advances by one. -/
theorem scan_selects_longest_earliest_match (pairs : List ReplacePair) (c : Char)
    (rest : List Char) :
    (∀ ml p, findBest (c :: rest) pairs = (ml, some p) →
      ml = p.fromStr.length ∧
      0 < p.fromStr.length ∧
      p.fromStr.isPrefixOf (c :: rest) = true ∧
      (∀ q ∈ pairs, 0 < q.fromStr.length → q.fromStr.isPrefixOf (c :: rest) = true →
        q.fromStr.length ≤ p.fromStr.length) ∧
      (∃ l₁ l₂, pairs = l₁ ++ p :: l₂ ∧
        ∀ q ∈ l₁, 0 < q.fromStr.length → q.fromStr.isPrefixOf (c :: rest) = true →
          q.fromStr.length < p.fromStr.length) ∧
      replace_in_string (c :: rest) pairs =
        (p.toStr ++ (replace_in_string (List.drop p.fromStr.length (c :: rest)) pairs).1,
          true)) ∧
    (∀ ml, findBest (c :: rest) pairs = (ml, none) →
      (∀ q ∈ pairs, 0 < q.fromStr.length → q.fromStr.isPrefixOf (c :: rest) = false) ∧
      replace_in_string (c :: rest) pairs =
        (c :: (replace_in_string rest pairs).1, (replace_in_string rest pairs).2)) := by
  constructor
  · intro ml p hfb
    obtain ⟨hml, hm, l₁, l₂, hdec, hlt, hle⟩ := findBest_some (c :: rest) pairs ml p hfb
    subst hml
    refine ⟨rfl, hm.1, hm.2, ?_, ⟨l₁, l₂, hdec, fun q hq h1 h2 => hlt q hq ⟨h1, h2⟩⟩, ?_⟩
    · intro q hq h1 h2
      rw [hdec] at hq
      rcases List.mem_append.1 hq with hq | hq
      · exact le_of_lt (hlt q hq ⟨h1, h2⟩)
      · rcases List.mem_cons.1 hq with hq | hq
        · rw [hq]
        · exact hle q hq ⟨h1, h2⟩
    · rw [replace_in_string_cons, hfb]
  · intro ml hfb
    have hnone := findBest_none (c :: rest) pairs ml hfb
    constructor
    · intro q hq h1
      have := hnone q hq
      simp only [MatchesAt, not_and] at this
      exact (Bool.not_eq_true _).mp (this h1)
    · rw [replace_in_string_cons, hfb]

/-- Witness for C1 at concrete inputs: a matching step (where the longer of
two matching patterns wins) and a copying step. -/
theorem scan_selects_longest_earliest_match_witness :
    replace_in_string ['a', 'b', 'c'] [⟨['a', 'b'], ['X']⟩, ⟨['a'], ['Y']⟩] =
      (['X'] ++ (replace_in_string ['c'] [⟨['a', 'b'], ['X']⟩, ⟨['a'], ['Y']⟩]).1, true) ∧
    replace_in_string ['z'] [⟨['a', 'b'], ['X']⟩, ⟨['a'], ['Y']⟩] =
      ('z' :: (replace_in_string [] [⟨['a', 'b'], ['X']⟩, ⟨['a'], ['Y']⟩]).1,
        (replace_in_string [] [⟨['a', 'b'], ['X']⟩, ⟨['a'], ['Y']⟩]).2) := by
  constructor
  · exact ((scan_selects_longest_earliest_match [⟨['a', 'b'], ['X']⟩, ⟨['a'], ['Y']⟩]
      'a' ['b', 'c']).1 2 ⟨['a', 'b'], ['X']⟩ (by decide)).2.2.2.2.2
  · exact ((scan_selects_longest_earliest_match [⟨['a', 'b'], ['X']⟩, ⟨['a'], ['Y']⟩]
      'z' []).2 0 (by decide)).2

/-- C5: with patterns {"ab" -> "X", "a" -> "Y"}, in either declaration order,
input "abc" produces "Xc": the longer pattern wins at the shared position. -/
theorem longest_match_precedence_example :
    replace_in_string ['a', 'b', 'c'] [⟨['a', 'b'], ['X']⟩, ⟨['a'], ['Y']⟩] =
      (['X', 'c'], true) ∧
    replace_in_string ['a', 'b', 'c'] [⟨['a'], ['Y']⟩, ⟨['a', 'b'], ['X']⟩] =
      (['X', 'c'], true) := by
  decide

lemma consumeChunksF_nil (pairs : List ReplacePair) (fuel : Nat) :
    consumeChunksF pairs fuel [] = [] := by
  cases fuel <;> rfl

lemma consumeChunksF_spec (pairs : List ReplacePair) :
    ∀ (fuel : Nat) (cur : List Char), cur.length ≤ fuel →
      (consumeChunksF pairs fuel cur).flatten = cur ∧
      ∀ ch ∈ consumeChunksF pairs fuel cur, 0 < ch.length := by
  intro fuel
  induction fuel with
  | zero =>
    intro cur h
    have : cur = [] := List.eq_nil_of_length_eq_zero (Nat.le_zero.1 h)
    subst this
    simp [consumeChunksF_nil]
  | succ f ih =>
    intro cur h
    match cur with
    | [] => simp [consumeChunksF_nil]
    | c :: rest =>
      have hcons : consumeChunksF pairs (f + 1) (c :: rest) =
          match findBest (c :: rest) pairs with
          | (matchLen, some _) =>
            List.take matchLen (c :: rest) ::
              consumeChunksF pairs f (List.drop matchLen (c :: rest))
          | (_, none) => [c] :: consumeChunksF pairs f rest := rfl
      rw [hcons]
      rcases hfb : findBest (c :: rest) pairs with ⟨ml, best⟩
      cases best with
      | some p =>
        dsimp only
        have hpos : 0 < ml := findBest_pos (c :: rest) pairs ml p hfb
        have hlen : (List.drop ml (c :: rest)).length ≤ f := by
          rw [List.length_drop]
          simp only [List.length_cons] at h ⊢
          omega
        obtain ⟨ihf, ihp⟩ := ih (List.drop ml (c :: rest)) hlen
        constructor
        · simp only [List.flatten_cons, ihf, List.take_append_drop]
        · intro ch hch
          rcases List.mem_cons.1 hch with hch | hch
          · subst hch
            rw [List.length_take]
            simp only [List.length_cons]
            omega
          · exact ihp ch hch
      | none =>
        dsimp only
        have hlen : rest.length ≤ f := by
          simp only [List.length_cons] at h
          omega
        obtain ⟨ihf, ihp⟩ := ih rest hlen
        constructor
        · simp only [List.flatten_cons, ihf]
          rfl
        · intro ch hch
          rcases List.mem_cons.1 hch with hch | hch
          · subst hch; simp
          · exact ihp ch hch

/-- C2: the per-step consumption of the `replace_in_string` loop partitions
the input exactly: every step consumes a non-empty chunk (a matched
from-string or one copied character), concatenating the chunks reconstructs
the input with no character duplicated or dropped, and the consumed lengths
sum to the input length. -/
theorem scan_consumption_partitions_input (pairs : List ReplacePair)
    (str : List Char) :
    (consumeChunks pairs str).flatten = str ∧
    (∀ ch ∈ consumeChunks pairs str, 0 < ch.length) ∧
    ((consumeChunks pairs str).map List.length).sum = str.length := by
  obtain ⟨hf, hp⟩ := consumeChunksF_spec pairs str.length str le_rfl
  refine ⟨hf, hp, ?_⟩
  rw [← List.length_flatten]
  show (consumeChunksF pairs str.length str).flatten.length = str.length
  rw [hf]
lemma findBestAux_ignore_empty (cur : List Char) (t : List Char) :
    ∀ (l₁ : List ReplacePair) (l₂ : List ReplacePair) (ml : Nat)
      (best : Option ReplacePair),
      findBestAux cur ml best (l₁ ++ ⟨[], t⟩ :: l₂) =
        findBestAux cur ml best (l₁ ++ l₂) := by
  intro l₁
  induction l₁ with
  | nil => intro l₂ ml best; rfl
  | cons p ps ih =>
    intro l₂ ml best
    simp only [List.cons_append]
    unfold findBestAux
    by_cases h0 : p.fromStr.length = 0
    · rw [if_pos h0, if_pos h0, ih]
    · rw [if_neg h0, if_neg h0]
      by_cases hpre : p.fromStr.isPrefixOf cur
      · rw [if_pos hpre, if_pos hpre]
        by_cases hgt : p.fromStr.length > ml
        · rw [if_pos hgt, if_pos hgt, ih]
        · rw [if_neg hgt, if_neg hgt, ih]
      · rw [if_neg hpre, if_neg hpre, ih]

lemma findBest_ignore_empty (cur : List Char) (t : List Char)
    (l₁ l₂ : List ReplacePair) :
    findBest cur (l₁ ++ ⟨[], t⟩ :: l₂) = findBest cur (l₁ ++ l₂) :=
  findBestAux_ignore_empty cur t l₁ l₂ 0 none

/-- C6: a pair whose from-string is empty never matches and has no effect:
`replace_in_string` over a pattern list containing such a pair returns
exactly the same result (output and flag) as over the list with that pair
removed.  (`replace_in_string` is a total function of this development, so
termination holds by construction; positive per-step consumption is the
subject of the C2 theorem.) -/
theorem empty_from_pattern_ignored (cur : List Char) (l₁ l₂ : List ReplacePair)
    (t : List Char) :
    replace_in_string cur (l₁ ++ ⟨[], t⟩ :: l₂) = replace_in_string cur (l₁ ++ l₂) := by
  have main : ∀ (n : Nat) (cur : List Char), cur.length ≤ n →
      replace_in_string cur (l₁ ++ ⟨[], t⟩ :: l₂) =
        replace_in_string cur (l₁ ++ l₂) := by
    intro n
    induction n with
    | zero =>
      intro cur h
      have : cur = [] := List.eq_nil_of_length_eq_zero (Nat.le_zero.1 h)
      subst this
      rfl
    | succ n ih =>
      intro cur h
      match cur with
      | [] => rfl
      | c :: rest =>
        rw [replace_in_string_cons, replace_in_string_cons,
          findBest_ignore_empty (c :: rest) t l₁ l₂]
        rcases hfb : findBest (c :: rest) (l₁ ++ l₂) with ⟨ml, best⟩
        cases best with
        | some p =>
          dsimp only
          have hpos : 0 < ml := findBest_pos (c :: rest) (l₁ ++ l₂) ml p hfb
          have hlen : (List.drop ml (c :: rest)).length ≤ n := by
            rw [List.length_drop]
            simp only [List.length_cons] at h ⊢
            omega
          rw [ih (List.drop ml (c :: rest)) hlen]
        | none =>
          dsimp only
          have hlen : rest.length ≤ n := by
            simp only [List.length_cons] at h
            omega
          rw [ih rest hlen]
  exact main cur.length cur le_rfl

lemma findBest_noop_x (c : Char) (rest : List Char) :
    findBest (c :: rest) [⟨['x'], ['x']⟩] =
      if c = 'x' then (1, some ⟨['x'], ['x']⟩) else (0, none) := by
  by_cases hc : c = 'x'
  · subst hc
    simp [findBest, findBestAux, List.isPrefixOf]
  · rw [if_neg hc]
    have : (['x'].isPrefixOf (c :: rest)) = false := by
      simp [List.isPrefixOf]
      exact fun h => absurd h.symm hc
    simp [findBest, findBestAux, this]

/-- C7: with the single no-op pair ("x" -> "x"), `replace_in_string` returns
the input byte-for-byte, and the changed flag is true exactly when the input
contains an 'x' (the flag records that a match occurred, not that the content
differs). -/
theorem noop_pair_preserves_input_and_reports_change (str : List Char) :
    (replace_in_string str [⟨['x'], ['x']⟩]).1 = str ∧
    ((replace_in_string str [⟨['x'], ['x']⟩]).2 = true ↔ 'x' ∈ str) := by
  have main : ∀ (n : Nat) (str : List Char), str.length ≤ n →
      (replace_in_string str [⟨['x'], ['x']⟩]).1 = str ∧
      ((replace_in_string str [⟨['x'], ['x']⟩]).2 = true ↔ 'x' ∈ str) := by
    intro n
    induction n with
    | zero =>
      intro str h
      have : str = [] := List.eq_nil_of_length_eq_zero (Nat.le_zero.1 h)
      subst this
      simp [replace_in_string_nil]
    | succ n ih =>
      intro str h
      match str with
      | [] => simp [replace_in_string_nil]
      | c :: rest =>
        rw [replace_in_string_cons, findBest_noop_x c rest]
        have hlen : rest.length ≤ n := by
          simp only [List.length_cons] at h
          omega
        obtain ⟨ih1, ih2⟩ := ih rest hlen
        by_cases hc : c = 'x'
        · subst hc
          rw [if_pos rfl]
          dsimp only
          constructor
          · show ('x' :: (replace_in_string (List.drop 1 ('x' :: rest)) [⟨['x'], ['x']⟩]).1) = _
            rw [show List.drop 1 ('x' :: rest) = rest from rfl, ih1]
          · simp
        · rw [if_neg hc]
          dsimp only
          refine ⟨by rw [ih1], ?_⟩
          rw [ih2]
          simp [List.mem_cons]
          intro h
          exact absurd h.symm hc
  exact main str.length str le_rfl
lemma foldl_or_eq_any (f : FileOutcome → Bool) :
    ∀ (l : List FileOutcome) (b : Bool),
      l.foldl (fun acc o => acc || f o) b = (b || l.any f) := by
  intro l
  induction l with
  | nil => intro b; simp
  | cons o l ih => intro b; simp [List.foldl_cons, ih, Bool.or_assoc]

lemma main_exit_code_eq (envs : List FsEnv) :
    main_exit_code envs =
      if (main_run_files envs).any (fun o => o.ret != 0) then 2 else 0 := by
  unfold main_exit_code
  rw [foldl_or_eq_any]
  simp

/-- C8: the process exit status is 0 exactly when every file processed
successfully; when any file fails, the exit status is 2, which is non-zero
and distinct from the argument-parsing failure status; and every file on
the command line is attempted regardless of earlier failures (the outcome
list has one entry per file, each the outcome of processing that file). -/
theorem exit_status_contract (envs : List FsEnv) :
    (main_exit_code envs = 0 ↔ ∀ o ∈ main_run_files envs, o.ret = 0) ∧
    ((∃ o ∈ main_run_files envs, o.ret ≠ 0) →
      main_exit_code envs = 2 ∧ main_exit_code envs ≠ 0 ∧
        main_exit_code envs ≠ arg_error_code) ∧
    (main_run_files envs).length = envs.length ∧
    (∀ i, (h : i < envs.length) →
      (main_run_files envs)[i]? = some (process_file (envs.get ⟨i, h⟩))) := by
  have hany : ((main_run_files envs).any (fun o => o.ret != 0) = true) ↔
      ∃ o ∈ main_run_files envs, o.ret ≠ 0 := by
    simp [List.any_eq_true]
  refine ⟨?_, ?_, ?_, ?_⟩
  · rw [main_exit_code_eq]
    by_cases hb : (main_run_files envs).any (fun o => o.ret != 0)
    · rw [if_pos hb]
      obtain ⟨o, ho, hne⟩ := hany.1 hb
      constructor
      · intro h; omega
      · intro h; exact absurd (h o ho) hne
    · rw [if_neg hb]
      simp only [true_iff]
      intro o ho
      by_contra hne
      exact hb (hany.2 ⟨o, ho, hne⟩)
  · intro hex
    rw [main_exit_code_eq, if_pos (hany.2 hex)]
    refine ⟨rfl, by omega, by decide⟩
  · exact List.length_map envs process_file
  · intro i h
    show (envs.map process_file)[i]? = some (process_file (envs.get ⟨i, h⟩))
    rw [List.getElem?_map, List.getElem?_eq_getElem h]
    rfl

/-- Witness for C8: a run with one failing file among two exits with 2; a
fully successful run exits with 0. -/
theorem exit_status_contract_witness :
    main_exit_code [⟨true, true, true, true, true, true⟩,
      ⟨false, true, true, true, true, true⟩] = 2 ∧
    main_exit_code [⟨true, true, true, true, true, true⟩] = 0 := by
  constructor
  · exact ((exit_status_contract [⟨true, true, true, true, true, true⟩,
      ⟨false, true, true, true, true, true⟩]).2.1
      ⟨process_file ⟨false, true, true, true, true, true⟩, by decide, by decide⟩).1
  · exact (exit_status_contract [⟨true, true, true, true, true, true⟩]).1.2 (by decide)
lemma selPass_length :
    ∀ (l : List ReplacePair) (cur : ReplacePair), (selPass cur l).2.length = l.length := by
  intro l
  induction l with
  | nil => intro cur; rfl
  | cons p ps ih =>
    intro cur
    unfold selPass
    by_cases hgt : p.fromStr.length > cur.fromStr.length
    · rw [if_pos hgt]
      simp [ih]
    · rw [if_neg hgt]
      simp [ih]

lemma selPass_max :
    ∀ (l : List ReplacePair) (cur : ReplacePair),
      cur.fromStr.length ≤ (selPass cur l).1.fromStr.length ∧
      ∀ q ∈ (selPass cur l).2, q.fromStr.length ≤ (selPass cur l).1.fromStr.length := by
  intro l
  induction l with
  | nil => intro cur; exact ⟨le_rfl, by simp [selPass]⟩
  | cons p ps ih =>
    intro cur
    unfold selPass
    by_cases hgt : p.fromStr.length > cur.fromStr.length
    · rw [if_pos hgt]
      obtain ⟨h1, h2⟩ := ih p
      refine ⟨le_of_lt (lt_of_lt_of_le hgt h1), fun q hq => ?_⟩
      rcases List.mem_cons.1 hq with hq | hq
      · subst hq; exact le_of_lt (lt_of_lt_of_le hgt h1)
      · exact h2 q hq
    · rw [if_neg hgt]
      obtain ⟨h1, h2⟩ := ih cur
      refine ⟨h1, fun q hq => ?_⟩
      rcases List.mem_cons.1 hq with hq | hq
      · subst hq; exact le_trans (by omega) h1
      · exact h2 q hq

lemma selPass_perm :
    ∀ (l : List ReplacePair) (cur : ReplacePair),
      List.Perm ((selPass cur l).1 :: (selPass cur l).2) (cur :: l) := by
  intro l
  induction l with
  | nil => intro cur; exact List.Perm.refl _
  | cons p ps ih =>
    intro cur
    unfold selPass
    by_cases hgt : p.fromStr.length > cur.fromStr.length
    · rw [if_pos hgt]
      exact (List.Perm.swap cur (selPass p ps).1 (selPass p ps).2).trans
        ((ih p).cons cur)
    · rw [if_neg hgt]
      exact ((List.Perm.swap p (selPass cur ps).1 (selPass cur ps).2).trans
        ((ih cur).cons p)).trans (List.Perm.swap cur p ps)

lemma selSortF_perm :
    ∀ (n : Nat) (l : List ReplacePair), l.length = n → List.Perm (selSortF n l) l := by
  intro n
  induction n with
  | zero =>
    intro l h
    have : l = [] := List.eq_nil_of_length_eq_zero h
    subst this
    exact List.Perm.refl _
  | succ n ih =>
    intro l h
    match l with
    | [] => simp at h
    | p :: ps =>
      show List.Perm ((selPass p ps).1 :: selSortF n (selPass p ps).2) (p :: ps)
      have hlen : (selPass p ps).2.length = n := by
        rw [selPass_length]
        simpa using h
      exact (List.Perm.cons _ (ih (selPass p ps).2 hlen)).trans (selPass_perm ps p)

lemma selSortF_sorted :
    ∀ (n : Nat) (l : List ReplacePair), l.length = n →
      List.Pairwise (fun a b => b.fromStr.length ≤ a.fromStr.length) (selSortF n l) := by
  intro n
  induction n with
  | zero => intro l h; exact List.Pairwise.nil
  | succ n ih =>
    intro l h
    match l with
    | [] => simp at h
    | p :: ps =>
      show List.Pairwise _ ((selPass p ps).1 :: selSortF n (selPass p ps).2)
      have hlen : (selPass p ps).2.length = n := by
        rw [selPass_length]
        simpa using h
      refine List.Pairwise.cons (fun q hq => ?_) (ih (selPass p ps).2 hlen)
      have hmem : q ∈ (selPass p ps).2 :=
        ((selSortF_perm n (selPass p ps).2 hlen).mem_iff).1 hq
      exact (selPass_max ps p).2 q hmem

/-- C9: after `parse_replace_strings` returns successfully, the pattern list
is ordered by non-increasing from-string length: for every earlier/later
index pair, the earlier from-string is at least as long as the later one. -/
theorem parse_sorts_by_descending_from_length (args : List (List Char))
    (l : List ReplacePair) (h : parse_replace_strings args = some l) :
    List.Pairwise (fun a b => b.fromStr.length ≤ a.fromStr.length) l := by
  unfold parse_replace_strings at h
  by_cases hc : args.length < 2 ∨ args.length % 2 ≠ 0
  · rw [if_pos hc] at h
    exact absurd h (by simp)
  · rw [if_neg hc] at h
    have : selSort (mkPairs args) = l := Option.some.inj h
    subst this
    exact selSortF_sorted (mkPairs args).length (mkPairs args) rfl

/-- Witness for C9 at a concrete argument list: ("a","b","cc","d") parses to
the pairs sorted with "cc" first, and that list is pairwise ordered by
non-increasing from-length. -/
theorem parse_sorts_by_descending_from_length_witness :
    List.Pairwise (fun a b => b.fromStr.length ≤ a.fromStr.length)
      [(⟨['c', 'c'], ['d']⟩ : ReplacePair), ⟨['a'], ['b']⟩] :=
  parse_sorts_by_descending_from_length [['a'], ['b'], ['c', 'c'], ['d']]
    [⟨['c', 'c'], ['d']⟩, ⟨['a'], ['b']⟩] (by decide)
lemma replaceAllocLoop_ok_isSome (oracle : Nat → Bool) (pairs : List ReplacePair) :
    ∀ (fuel : Nat) (cur acc : List Char) (bufSize k : Nat) (upd : Bool)
      (r : Option (List Char) × Bool),
      replaceAllocLoop oracle pairs fuel cur acc bufSize k upd = Except.ok r →
      r.1.isSome = true := by
  intro fuel
  induction fuel with
  | zero =>
    intro cur acc bufSize k upd r h
    match cur with
    | [] =>
      have : r = (some acc, upd) := (Except.ok.inj h).symm
      rw [this]
      rfl
    | _ :: _ =>
      have : r = (some acc, upd) := (Except.ok.inj h).symm
      rw [this]
      rfl
  | succ f ih =>
    intro cur acc bufSize k upd r h
    match cur with
    | [] =>
      have : r = (some acc, upd) := (Except.ok.inj h).symm
      rw [this]
      rfl
    | c :: rest =>
      have hstep : replaceAllocLoop oracle pairs (f + 1) (c :: rest) acc bufSize k upd =
          match findBest (c :: rest) pairs with
          | (matchLen, some p) =>
            if acc.length + p.toStr.length + 1 > bufSize then
              if oracle k then
                replaceAllocLoop oracle pairs f (List.drop matchLen (c :: rest))
                  (acc ++ p.toStr) ((acc.length + p.toStr.length + 1) * 2) (k + 1) true
              else
                Except.error ()
            else
              replaceAllocLoop oracle pairs f (List.drop matchLen (c :: rest))
                (acc ++ p.toStr) bufSize k true
          | (_, none) =>
            if acc.length + 2 > bufSize then
              if oracle k then
                replaceAllocLoop oracle pairs f rest (acc ++ [c]) (bufSize * 2) (k + 1) upd
              else
                Except.error ()
            else
              replaceAllocLoop oracle pairs f rest (acc ++ [c]) bufSize k upd := rfl
      rw [hstep] at h
      rcases hfb : findBest (c :: rest) pairs with ⟨ml, best⟩
      rw [hfb] at h
      cases best with
      | some p =>
        dsimp only at h
        by_cases h1 : acc.length + p.toStr.length + 1 > bufSize
        · rw [if_pos h1] at h
          by_cases h2 : oracle k
          · rw [if_pos h2] at h
            exact ih _ _ _ _ _ _ h
          · rw [if_neg h2] at h
            exact Except.noConfusion h
        · rw [if_neg h1] at h
          exact ih _ _ _ _ _ _ h
      | none =>
        dsimp only at h
        by_cases h1 : acc.length + 2 > bufSize
        · rw [if_pos h1] at h
          by_cases h2 : oracle k
          · rw [if_pos h2] at h
            exact ih _ _ _ _ _ _ h
          · rw [if_neg h2] at h
            exact Except.noConfusion h
        · rw [if_neg h1] at h
          exact ih _ _ _ _ _ _ h

/-- C10: `replace_in_string` never returns a NULL pointer to its caller: an
allocation failure makes the process exit instead of returning, and every
ordinary return carries a string.  Hence the NULL-check branch of
`process_stream` that would report "Replacement failed." is unreachable,
for every allocation oracle, pattern list and input line. -/
theorem replacement_failed_branch_unreachable (oracle : Nat → Bool)
    (pairs : List ReplacePair) (raw : List Char) :
    process_stream_line oracle pairs raw ≠ StreamLineResult.replacementFailed := by
  unfold process_stream_line
  rcases hres : replace_in_string_alloc oracle (chomp raw) pairs with e | ⟨ro, rupd⟩
  · cases e
    simp
  · have hsome : (ro, rupd).1.isSome = true := by
      unfold replace_in_string_alloc at hres
      by_cases h0 : oracle 0
      · rw [if_pos h0] at hres
        exact replaceAllocLoop_ok_isSome oracle pairs _ _ _ _ _ _ _ hres
      · rw [if_neg h0] at hres
        exact Except.noConfusion hres
    rcases ro with _ | s
    · simp at hsome
    · simp
/-- C4 counterexample: a final line read without a trailing newline is
nevertheless written with one.  With the (no-op) pattern list
[("q","q")] and the newline-less input line "a", `process_stream`
emits "a\n", not "a" as the claim requires. -/
theorem final_line_gains_newline_counterexample :
    processLine [⟨['q'], ['q']⟩] ['a'] ≠ ['a'] ∧
    processLine [⟨['q'], ['q']⟩] ['a'] = ['a', '\n'] := by
  decide

/-- C4 amended: each line has one trailing newline stripped before
`replace_in_string` and the output line is always written with a trailing
newline appended, whether or not the input line ended with one; in
particular a line read with a trailing newline is written with it restored,
and a final line read without one gains one. -/
theorem line_output_always_newline_terminated (pairs : List ReplacePair)
    (s : List Char) (h : s.getLast? ≠ some '\n') :
    processLine pairs (s ++ ['\n']) = (replace_in_string s pairs).1 ++ ['\n'] ∧
    processLine pairs s = (replace_in_string s pairs).1 ++ ['\n'] := by
  constructor
  · unfold processLine chomp
    rw [if_pos]
    · rw [List.dropLast_concat]
    · constructor
      · simp
      · exact List.getLast?_concat s
  · unfold processLine chomp
    rw [if_neg]
    intro hcon
    exact h hcon.2

/-- Witness for C4 amended at a concrete line and pattern list. -/
theorem line_output_always_newline_terminated_witness :
    processLine [⟨['a'], ['b']⟩] ['a', '\n'] = ['b', '\n'] ∧
    processLine [⟨['a'], ['b']⟩] ['a'] = ['b', '\n'] := by
  have h := line_output_always_newline_terminated [⟨['a'], ['b']⟩] ['a'] (by decide)
  constructor
  · rw [show (['a'] ++ ['\n'] : List Char) = ['a', '\n'] from rfl] at h
    rw [h.1]
    decide
  · rw [h.2]
    decide

/-- C3 counterexample: in the environment where every filesystem operation
succeeds except the final rename, `process_file` removes the temporary file
(the only remaining copy of the transformed content, the original having
been removed) and returns the same generic failure value as any other
per-file failure (e.g. a failure to open the input), so no distinct error
variant is surfaced. -/
theorem rename_failure_removes_temp_counterexample :
    (process_file ⟨true, true, true, true, true, false⟩).origRemoved = true ∧
    (process_file ⟨true, true, true, true, true, false⟩).renamed = false ∧
    (process_file ⟨true, true, true, true, true, false⟩).tempRemoved = true ∧
    (process_file ⟨true, true, true, true, true, false⟩).ret =
      (process_file ⟨false, true, true, true, true, true⟩).ret := by
  decide

/-- C3 amended: if the rename fails after the original file was successfully
removed, `process_file` prints a message naming the rename failure to
stderr, removes the temporary file (so the transformed content is lost),
and returns the same generic failure value (1) used by every other per-file
failure — no distinct error variant exists. -/
theorem rename_failure_reports_and_removes_temp :
    process_file ⟨true, true, true, true, true, false⟩ =
      ⟨1, true, true, false, some "Failed to rename temporary file"⟩ := rfl
/-- Witness for C2 at a concrete input: with the overlapping pattern
("aa" -> "b") on "aaa", the consumed chunks are "aa" then "a", which
concatenate back to the input. -/
theorem scan_consumption_partitions_input_witness :
    (consumeChunks [⟨['a', 'a'], ['b']⟩] ['a', 'a', 'a']).flatten = ['a', 'a', 'a'] ∧
    ((consumeChunks [⟨['a', 'a'], ['b']⟩] ['a', 'a', 'a']).map List.length).sum = 3 :=
  ⟨(scan_consumption_partitions_input [⟨['a', 'a'], ['b']⟩] ['a', 'a', 'a']).1,
    (scan_consumption_partitions_input [⟨['a', 'a'], ['b']⟩] ['a', 'a', 'a']).2.2⟩

/-- Witness for C6 at a concrete input: inserting the empty-from pair
("", "z") into the pattern list does not change the result. -/
theorem empty_from_pattern_ignored_witness :
    replace_in_string ['a'] ([⟨['a'], ['b']⟩] ++ ⟨[], ['z']⟩ :: []) =
      replace_in_string ['a'] ([⟨['a'], ['b']⟩] ++ []) :=
  empty_from_pattern_ignored ['a'] [⟨['a'], ['b']⟩] [] ['z']

/-- Witness for C7 at a concrete input containing an 'x'. -/
theorem noop_pair_preserves_input_and_reports_change_witness :
    (replace_in_string ['a', 'x'] [⟨['x'], ['x']⟩]).1 = ['a', 'x'] ∧
    (replace_in_string ['a', 'x'] [⟨['x'], ['x']⟩]).2 = true :=
  ⟨(noop_pair_preserves_input_and_reports_change ['a', 'x']).1,
    (noop_pair_preserves_input_and_reports_change ['a', 'x']).2.mpr (by decide)⟩

/-- Witness for C10 at a concrete oracle, pattern list and line. -/
theorem replacement_failed_branch_unreachable_witness :
    process_stream_line (fun _ => true) [⟨['a'], ['b', 'b']⟩] ['a', '\n'] ≠
      StreamLineResult.replacementFailed :=
  replacement_failed_branch_unreachable (fun _ => true) [⟨['a'], ['b', 'b']⟩] ['a', '\n']
